import Mathlib

/-!
Shallow embedding of the engagement-scoring core of the `emotion-detector`
repository (`src/emotion_detector/config.py`, `engagement.py`, `analyzer.py`).

Python dictionaries are modelled as insertion-ordered association lists
(`List (String × α)`): assignment replaces the value in place when the key is
present and appends a fresh entry otherwise, exactly like a CPython `dict`.
Real-valued scores are modelled as rationals `ℚ`, following the spec's data
model which treats them as real values.
-/

namespace EmotionDetector

/-- Python `str.lower()` on the ASCII emotion-name alphabet: lowercase every
character (extensionally Lean's `String.toLower`, written through `List.map`
so that the kernel can evaluate it on literals). -/
def strLower (s : String) : String := ⟨s.data.map Char.toLower⟩

/-- Code-point lexicographic `≤` on character lists, the order Python uses to
compare strings. -/
def charListLe : List Char → List Char → Bool
  | [], _ => true
  | _ :: _, [] => false
  | a :: as, b :: bs =>
      if a < b then true else if b < a then false else charListLe as bs

/-- Python `d[k] = v`: replace in place if `k` is a key of `d`, else append. -/
def dictInsert {α : Type} (d : List (String × α)) (k : String) (v : α) :
    List (String × α) :=
  match d with
  | [] => [(k, v)]
  | (k₀, v₀) :: rest =>
      if k₀ = k then (k, v) :: rest else (k₀, v₀) :: dictInsert rest k v

/-- Python `d.get(k)` / `d[k]` lookup: first entry whose key is `k`. -/
def dictGet? {α : Type} (d : List (String × α)) (k : String) : Option α :=
  match d with
  | [] => none
  | (k₀, v₀) :: rest => if k₀ = k then some v₀ else dictGet? rest k

/-- Python `d.get(k, dflt)`. -/
def dictGetD {α : Type} (d : List (String × α)) (k : String) (dflt : α) : α :=
  (dictGet? d k).getD dflt

/-- `EmotionWeights` (config.py): the three category collections. The Python
dataclass stores them as tuples, i.e. ordered sequences of names. -/
structure EmotionWeights where
  positive : List String
  neutral : List String
  negative : List String
deriving DecidableEq, Repr

/-- The default category collections of `EmotionWeights`. -/
def defaultEmotionWeights : EmotionWeights :=
  { positive := ["happy", "surprise", "excited", "engaged"]
    neutral := ["neutral", "calm"]
    negative := ["sad", "angry", "disgust", "fear", "bored", "contempt", "tired"] }

/-- `EmotionWeights.as_lookup` (config.py lines 35-45): build the dict by
assigning 1.0 to positive names, then 0.5 to neutral names, then 0.0 to
negative names; a later assignment overwrites an earlier one. -/
def EmotionWeights.as_lookup (w : EmotionWeights) : List (String × ℚ) :=
  let l₁ := w.positive.foldl (fun d e => dictInsert d e 1) []
  let l₂ := w.neutral.foldl (fun d e => dictInsert d e (1/2)) l₁
  w.negative.foldl (fun d e => dictInsert d e 0) l₂

/-- `TrackerConfig` (config.py). -/
structure TrackerConfig where
  smoothing_factor : ℚ := 1/5
  history_size : ℕ := 150
  emotion_weights : EmotionWeights := defaultEmotionWeights
deriving DecidableEq, Repr

/-- `TrackerConfig.weight_for` (config.py lines 56-61):
`self.emotion_weights.as_lookup().get(emotion, 0.5)`. -/
def TrackerConfig.weight_for (c : TrackerConfig) (emotion : String) : ℚ :=
  dictGetD c.emotion_weights.as_lookup emotion (1/2)

/-- Insert a string into a list so that an already ≤-sorted list stays sorted
(`sorted` building block). -/
def insertStr (x : String) : List String → List String
  | [] => [x]
  | y :: ys =>
      if charListLe x.data y.data then x :: y :: ys else y :: insertStr x ys

/-- Insertion sort on strings by code-point order, matching Python `sorted`. -/
def sortStr : List String → List String
  | [] => []
  | x :: xs => insertStr x (sortStr xs)

/-- `normalise` inside `merge_emotion_weights` (config.py):
`tuple(sorted(set of lowered values))` — lowercase, deduplicate, sort. -/
def normalise (values : List String) : List String :=
  sortStr (values.map strLower).dedup

/-- `merge_emotion_weights` (config.py lines 64-83). The `overrides` mapping is
a dict from category name to a list of names, or `None`; Python's
`if not overrides` treats both `None` and the empty dict as absent. -/
def merge_emotion_weights (base : EmotionWeights)
    (overrides : Option (List (String × List String))) : EmotionWeights :=
  match overrides with
  | none => base
  | some o =>
      if o = [] then base
      else
        { positive := normalise (dictGetD o "positive" base.positive)
          neutral := normalise (dictGetD o "neutral" base.neutral)
          negative := normalise (dictGetD o "negative" base.negative) }

/-- `EmotionDetection` (analyzer.py): bounding box plus emotion mapping. -/
structure EmotionDetection where
  box : Int × Int × Int × Int
  emotions : List (String × ℚ)
deriving DecidableEq, Repr

/-- The mutable state of an `EngagementTracker` (engagement.py lines 28-31):
the bounded deque of raw scores and the optional smoothed score. -/
structure TrackerState where
  scores : List ℚ
  smoothed : Option ℚ
deriving DecidableEq, Repr

/-- `EngagementTracker.__init__`: empty deque, `_smoothed_score = None`. -/
def initState : TrackerState := { scores := [], smoothed := none }

/-- `collections.deque(maxlen := m).append x`: append, then evict from the left
until the length is at most `m`. -/
def dequeAppend (maxlen : ℕ) (xs : List ℚ) (x : ℚ) : List ℚ :=
  let ys := xs ++ [x]
  ys.drop (ys.length - maxlen)

/-- `statistics.mean` on a non-empty list. -/
def pyMean (xs : List ℚ) : ℚ := xs.sum / xs.length

/-- `EngagementTracker._score_for_emotions` (engagement.py lines 33-42). -/
def scoreForEmotions (c : TrackerConfig) (emotions : List (String × ℚ)) : ℚ :=
  let total_intensity := (emotions.map Prod.snd).sum
  if total_intensity ≤ 0 then 0
  else
    let weighted_total :=
      emotions.foldl (fun acc p => acc + c.weight_for (strLower p.1) * p.2) 0
    weighted_total / total_intensity

/-- The `frame_scores` list built by the loop in `update`: one
`_score_for_emotions` result per detection with a non-empty mapping. -/
def frameScores (c : TrackerConfig) (detections : List EmotionDetection) :
    List ℚ :=
  (detections.filter (fun d => ¬ d.emotions = [])).map
    (fun d => scoreForEmotions c d.emotions)

/-- `Counter` accumulation `emotion_totals[k] += v` (missing key counts as 0). -/
def addCount (t : List (String × ℚ)) (k : String) (v : ℚ) :
    List (String × ℚ) :=
  dictInsert t k (dictGetD t k 0 + v)

/-- The `emotion_totals` counter built by the loop in `update`: for every
detection, every emotion name is lowercased and its intensity accumulated.
(A detection with an empty mapping is skipped by the loop, which coincides
with folding over its empty list of pairs.) -/
def emotionTotals (detections : List EmotionDetection) : List (String × ℚ) :=
  detections.foldl
    (fun t d => d.emotions.foldl (fun t p => addCount t (strLower p.1) p.2) t) []

/-- Python `max(d, key := d.get)` on an association list with distinct keys:
scan keys in order, keeping the current key unless a strictly larger value
appears. Helper carrying the current best pair. -/
def maxAux (best : String × ℚ) : List (String × ℚ) → String × ℚ
  | [] => best
  | p :: rest => if best.2 < p.2 then maxAux p rest else maxAux best rest

/-- Python `max(d, key := d.get)`: `none` on the empty dict (where Python would
raise), otherwise the first key attaining the maximum value. -/
def pyMaxByVal : List (String × ℚ) → Option String
  | [] => none
  | p :: rest => some (maxAux p rest).1

/-- Python `x or 0.0` on an optional float: `None`, and the float `0.0` itself,
are falsy and give `0.0`. -/
def optOr (x : Option ℚ) : ℚ :=
  match x with
  | none => 0
  | some v => if v = 0 then 0 else v

/-- `FrameSummary` (engagement.py lines 14-22). -/
structure FrameSummary where
  raw_score : ℚ
  smoothed_score : ℚ
  rolling_average : ℚ
  dominant_emotion : Option String
  emotion_distribution : List (String × ℚ)
deriving DecidableEq, Repr

/-- `EngagementTracker.update` (engagement.py lines 44-91), with the tracker's
mutable state passed explicitly: returns the `FrameSummary` and the new state. -/
def update (c : TrackerConfig) (st : TrackerState)
    (detections : List EmotionDetection) : FrameSummary × TrackerState :=
  let frame_scores := frameScores c detections
  let emotion_totals := emotionTotals detections
  let raw_score :=
    if frame_scores = [] then 0
    else frame_scores.sum / (frame_scores.length : ℚ)
  let scores₁ := dequeAppend c.history_size st.scores raw_score
  let smoothed₁ : ℚ :=
    match st.smoothed with
    | none => raw_score
    | some s => (1 - c.smoothing_factor) * s + c.smoothing_factor * raw_score
  let rolling_average := if scores₁ = [] then 0 else pyMean scores₁
  let total_emotion_intensity := (emotion_totals.map Prod.snd).sum
  let distribution :=
    if 0 < total_emotion_intensity then
      emotion_totals.map (fun p => (p.1, p.2 / total_emotion_intensity))
    else []
  let dominant_emotion :=
    if 0 < total_emotion_intensity then pyMaxByVal distribution else none
  (⟨raw_score, optOr (some smoothed₁), rolling_average, dominant_emotion,
      distribution⟩,
    ⟨scores₁, some smoothed₁⟩)

/-- Iterate `update` over a list of frames, returning the final state. -/
def runUpdates (c : TrackerConfig) (st : TrackerState) :
    List (List EmotionDetection) → TrackerState
  | [] => st
  | f :: fs => runUpdates c (update c st f).2 fs

/-- Iterate `update` over a list of frames, collecting every returned summary. -/
def runSummaries (c : TrackerConfig) (st : TrackerState) :
    List (List EmotionDetection) → List FrameSummary
  | [] => []
  | f :: fs => (update c st f).1 :: runSummaries c (update c st f).2 fs

/-- `format_detection_summary` (analyzer.py lines 57-71): per-emotion totals
and detection counts, then the per-emotion average. Emotion names are used
as-is (no case folding here). -/
def format_detection_summary (detections : List EmotionDetection) :
    List (String × ℚ) :=
  let totals := detections.foldl
    (fun t d => d.emotions.foldl
      (fun t p => dictInsert t p.1 (dictGetD t p.1 0 + p.2)) t) []
  let counts : List (String × ℕ) := detections.foldl
    (fun t d => d.emotions.foldl
      (fun t p => dictInsert t p.1 (dictGetD t p.1 0 + 1)) t) []
  if totals = [] then []
  else totals.map (fun p => (p.1, p.2 / ((dictGetD counts p.1 0 : ℕ) : ℚ)))

/-! ## Concrete configurations used in the scenarios of the spec -/

/-- The configuration of the spec's concrete scenario:
positive `{"happy"}`, neutral `{"neutral"}`, negative `{"sad"}`, α = 0.2. -/
def cfgHappy : TrackerConfig :=
  { smoothing_factor := 1/5, history_size := 150,
    emotion_weights :=
      { positive := ["happy"], neutral := ["neutral"], negative := ["sad"] } }

/-- The single detection of the spec's concrete scenario:
emotions `{"happy": 0.6, "sad": 0.4}`. -/
def det1 : EmotionDetection :=
  { box := (0, 0, 0, 0), emotions := [("happy", 3/5), ("sad", 2/5)] }

/-- A second detection for multi-face scenarios: emotions `{"happy": 1.0}`. -/
def det2 : EmotionDetection :=
  { box := (1, 1, 2, 2), emotions := [("happy", 1)] }

/-- Small-history configuration for windowing scenarios: history_size = 2. -/
def cfgSmall : TrackerConfig :=
  { smoothing_factor := 1/5, history_size := 2,
    emotion_weights :=
      { positive := ["happy"], neutral := ["neutral"], negative := ["sad"] } }

/-! ## Specification-level quantities used to state the claims -/

/-- The raw score computed for one frame, independent of tracker state. -/
def frameRaw (c : TrackerConfig) (ds : List EmotionDetection) : ℚ :=
  if frameScores c ds = [] then 0
  else (frameScores c ds).sum / ((frameScores c ds).length : ℚ)

/-- The total emotion intensity of a frame: the sum of every emotion score of
every detection (empty mappings contribute 0). -/
def frameIntensity (ds : List EmotionDetection) : ℚ :=
  (ds.map (fun d => (d.emotions.map Prod.snd).sum)).sum

/-- The intensity accumulated this frame for the (lowercased) emotion name
`k`: the sum over all detections of the scores of their emotions whose
lowercased name is `k`. -/
def accIntensity (k : String) (ds : List EmotionDetection) : ℚ :=
  (ds.map (fun d =>
    ((d.emotions.filter (fun p => strLower p.1 = k)).map Prod.snd).sum)).sum

/-- The sum of the scores reported for emotion name `k` (as-is, no case
folding) across all detections. -/
def reportSum (k : String) (ds : List EmotionDetection) : ℚ :=
  (ds.map (fun d =>
    ((d.emotions.filter (fun p => p.1 = k)).map Prod.snd).sum)).sum

/-- The number of detections whose mapping reports emotion name `k`. -/
def reportCount (k : String) (ds : List EmotionDetection) : ℕ :=
  ds.countP (fun d => d.emotions.any (fun p => p.1 = k))

/-- The `totals` dict built by `format_detection_summary` (analyzer.py). -/
def summaryTotals (ds : List EmotionDetection) : List (String × ℚ) :=
  ds.foldl (fun t d => d.emotions.foldl
    (fun t p => dictInsert t p.1 (dictGetD t p.1 0 + p.2)) t) []

/-- The `counts` dict built by `format_detection_summary` (analyzer.py). -/
def summaryCounts (ds : List EmotionDetection) : List (String × ℕ) :=
  ds.foldl (fun t d => d.emotions.foldl
    (fun t p => dictInsert t p.1 (dictGetD t p.1 0 + 1)) t) []

/-! ## Helper lemmas -/

theorem foldl_add_eq {α : Type} (f : α → ℚ) :
    ∀ (l : List α) (a : ℚ),
      l.foldl (fun acc x => acc + f x) a = a + (l.map f).sum
  | [], a => by simp
  | x :: xs, a => by
      simp only [List.foldl_cons, List.map_cons, List.sum_cons,
        foldl_add_eq f xs (a + f x)]
      ring

theorem dictGet?_insert {α : Type} (d : List (String × α)) (k e : String)
    (v : α) :
    dictGet? (dictInsert d k v) e = if e = k then some v else dictGet? d e := by
  induction d with
  | nil =>
      by_cases h : e = k
      · subst h; simp [dictInsert, dictGet?]
      · have hne : ¬ k = e := fun hh => h hh.symm
        simp only [dictInsert, dictGet?]
        rw [if_neg hne, if_neg h]
  | cons p rest ih =>
      obtain ⟨k₀, v₀⟩ := p
      by_cases h₁ : k₀ = k
      · subst h₁
        simp only [dictInsert, if_pos rfl, dictGet?]
        by_cases h₂ : e = k₀
        · subst h₂; simp
        · have hne : ¬ k₀ = e := fun hh => h₂ hh.symm
          rw [if_neg hne, if_neg hne, if_neg h₂]
      · simp only [dictInsert, if_neg h₁, dictGet?]
        by_cases h₃ : k₀ = e
        · subst h₃
          rw [if_pos rfl, if_neg h₁, if_pos rfl]
        · rw [if_neg h₃, ih, if_neg h₃]

theorem dictGet?_foldl_insert (v : ℚ) :
    ∀ (L : List String) (d : List (String × ℚ)) (k : String),
      dictGet? (L.foldl (fun d e => dictInsert d e v) d) k =
        if k ∈ L then some v else dictGet? d k
  | [], d, k => by simp
  | x :: L, d, k => by
      simp only [List.foldl_cons, dictGet?_foldl_insert v L (dictInsert d x v) k,
        dictGet?_insert, List.mem_cons]
      by_cases h₁ : k ∈ L <;> by_cases h₂ : k = x <;> simp [h₁, h₂]

theorem as_lookup_get (w : EmotionWeights) (k : String) :
    dictGet? w.as_lookup k =
      if k ∈ w.negative then some 0
      else if k ∈ w.neutral then some (1/2)
      else if k ∈ w.positive then some 1
      else none := by
  unfold EmotionWeights.as_lookup
  rw [dictGet?_foldl_insert, dictGet?_foldl_insert, dictGet?_foldl_insert]
  rcases em (k ∈ w.negative) with h₁ | h₁ <;>
    rcases em (k ∈ w.neutral) with h₂ | h₂ <;>
      rcases em (k ∈ w.positive) with h₃ | h₃ <;>
        simp [h₁, h₂, h₃, dictGet?]

theorem weight_for_eq (c : TrackerConfig) (k : String) :
    c.weight_for k =
      if k ∈ c.emotion_weights.negative then 0
      else if k ∈ c.emotion_weights.neutral then 1/2
      else if k ∈ c.emotion_weights.positive then 1
      else 1/2 := by
  unfold TrackerConfig.weight_for dictGetD
  rw [as_lookup_get]
  rcases em (k ∈ c.emotion_weights.negative) with h₁ | h₁ <;>
    rcases em (k ∈ c.emotion_weights.neutral) with h₂ | h₂ <;>
      rcases em (k ∈ c.emotion_weights.positive) with h₃ | h₃ <;>
        simp [h₁, h₂, h₃]

theorem scoreForEmotions_closed (c : TrackerConfig)
    (es : List (String × ℚ)) :
    scoreForEmotions c es =
      if (es.map Prod.snd).sum ≤ 0 then 0
      else (es.map (fun p => c.weight_for (strLower p.1) * p.2)).sum /
        (es.map Prod.snd).sum := by
  unfold scoreForEmotions
  rw [foldl_add_eq (fun p => c.weight_for (strLower p.1) * p.2) es 0]
  simp

theorem optOr_some (v : ℚ) : optOr (some v) = v := by
  unfold optOr
  by_cases h : v = 0 <;> simp [h]

/-! ## Claims -/

/-- C1: For every detection with a non-empty emotion mapping, the per-face
score is 0.0 when the sum of its emotion scores is ≤ 0, and otherwise equals
the sum over its emotions of weight(emotion) * score(emotion), divided by the
sum of its emotion scores; in particular, with weights positive = {"happy"},
negative = {"sad"} and a single detection with emotions
{"happy": 0.6, "sad": 0.4}, the frame's raw_score is 0.6. -/
theorem per_face_score_c1 :
    (∀ (c : TrackerConfig) (es : List (String × ℚ)), es ≠ [] →
        scoreForEmotions c es =
          if (es.map Prod.snd).sum ≤ 0 then 0
          else (es.map (fun p => c.weight_for (strLower p.1) * p.2)).sum /
            (es.map Prod.snd).sum)
    ∧ (update cfgHappy initState [det1]).1.raw_score = 3/5 := by
  constructor
  · intro c es _
    exact scoreForEmotions_closed c es
  · simp [update, frameScores, scoreForEmotions, strLower, cfgHappy, det1,
      TrackerConfig.weight_for, EmotionWeights.as_lookup, dictInsert,
      dictGetD, dictGet?]
    norm_num

/-- Witness for C1: the general part applied to the concrete scenario
detection, whose mapping is non-empty. -/
theorem per_face_score_c1_witness :
    scoreForEmotions cfgHappy det1.emotions = 3/5 := by
  have h := per_face_score_c1.1 cfgHappy det1.emotions (by simp [det1])
  rw [h]
  simp [det1, cfgHappy, strLower, TrackerConfig.weight_for,
    EmotionWeights.as_lookup, dictInsert, dictGetD, dictGet?]
  norm_num

/-- C2: the first-ever `update` call sets the smoothed score to that call's
raw score exactly, and every later call sets it to
`(1 - α) * previous + α * raw` with α = `config.smoothing_factor`; with
α = 0.2, previous smoothed score 0.5 and raw score 1.0, the new smoothed
score is 0.6. -/
theorem smoothing_c2 :
    (∀ (c : TrackerConfig) (st : TrackerState) (ds : List EmotionDetection),
        (st.smoothed = none →
          (update c st ds).2.smoothed = some (update c st ds).1.raw_score) ∧
        (∀ s, st.smoothed = some s →
          (update c st ds).2.smoothed =
            some ((1 - c.smoothing_factor) * s +
              c.smoothing_factor * (update c st ds).1.raw_score)))
    ∧ (update cfgHappy { scores := [], smoothed := some (1/2) }
        [{ box := (0, 0, 0, 0), emotions := [("happy", 1)] }]).2.smoothed =
      some (3/5) := by
  constructor
  · intro c st ds
    constructor
    · intro h
      simp [update, h]
    · intro s h
      simp [update, h]
  · simp [update, frameScores, scoreForEmotions, strLower, cfgHappy,
      TrackerConfig.weight_for, EmotionWeights.as_lookup, dictInsert,
      dictGetD, dictGet?, dequeAppend, pyMean, emotionTotals, addCount]
    norm_num

/-- Witness for C2: the second-call branch applied at a concrete state whose
smoothed score is 0.5, discharging the `smoothed = some s` hypothesis. -/
theorem smoothing_c2_witness :
    (update cfgHappy { scores := [], smoothed := some (1/2) } []).2.smoothed =
      some ((1 - cfgHappy.smoothing_factor) * (1/2) +
        cfgHappy.smoothing_factor *
          (update cfgHappy { scores := [], smoothed := some (1/2) }
            []).1.raw_score) :=
  (smoothing_c2.1 cfgHappy { scores := [], smoothed := some (1/2) } []).2
    (1/2) rfl

/-- C6: the derived weight lookup assigns 1.0 to names in the positive set,
0.5 to neutral, and 0.0 to negative, applied positive first, then neutral,
then negative, so that on conflict the last-applied category wins (negative
over neutral over positive); any name absent from all three sets resolves to
the default weight 0.5. -/
theorem weight_lookup_c6 :
    ∀ (c : TrackerConfig) (e : String),
      (e ∈ c.emotion_weights.negative → c.weight_for e = 0) ∧
      (e ∉ c.emotion_weights.negative → e ∈ c.emotion_weights.neutral →
        c.weight_for e = 1/2) ∧
      (e ∉ c.emotion_weights.negative → e ∉ c.emotion_weights.neutral →
        e ∈ c.emotion_weights.positive → c.weight_for e = 1) ∧
      (e ∉ c.emotion_weights.positive → e ∉ c.emotion_weights.neutral →
        e ∉ c.emotion_weights.negative → c.weight_for e = 1/2) := by
  intro c e
  refine ⟨fun h₁ => ?_, fun h₁ h₂ => ?_, fun h₁ h₂ h₃ => ?_,
    fun h₁ h₂ h₃ => ?_⟩
  · rw [weight_for_eq]; simp [h₁]
  · rw [weight_for_eq]; simp [h₁, h₂]
  · rw [weight_for_eq]; simp [h₁, h₂, h₃]
  · rw [weight_for_eq]; simp [h₁, h₂, h₃]

/-- Witness for C6: with the default categories, "sad" is negative and maps
to 0, and the unknown name "zeal" falls back to the default 0.5. -/
theorem weight_lookup_c6_witness :
    ({} : TrackerConfig).weight_for "sad" = 0 ∧
      ({} : TrackerConfig).weight_for "zeal" = 1/2 :=
  ⟨(weight_lookup_c6 {} "sad").1 (by decide),
    (weight_lookup_c6 {} "zeal").2.2.2 (by decide) (by decide) (by decide)⟩

/-- C10: after any call to `update`, the tracker's internal smoothed state is
always set (never `None`), and the `smoothed_score` field of the returned
`FrameSummary` equals that internal state exactly — the `or 0.0` fallback
never changes the returned value, including when the state is exactly 0.0. -/
theorem smoothed_state_c10 :
    ∀ (c : TrackerConfig) (st : TrackerState) (ds : List EmotionDetection),
      ∃ s, (update c st ds).2.smoothed = some s ∧
        (update c st ds).1.smoothed_score = s := by
  intro c st ds
  refine ⟨(update c st ds).1.smoothed_score, ?_, rfl⟩
  cases h : st.smoothed <;> simp [update, h, optOr_some]

theorem update_raw (c : TrackerConfig) (st : TrackerState)
    (ds : List EmotionDetection) :
    (update c st ds).1.raw_score = frameRaw c ds := rfl

theorem frameScores_nil_of_all_empty (c : TrackerConfig) :
    ∀ ds : List EmotionDetection, (∀ d ∈ ds, d.emotions = []) →
      frameScores c ds = []
  | [], _ => rfl
  | d :: ds, h => by
      have hd : d.emotions = [] := h d (List.mem_cons_self d ds)
      have ht := frameScores_nil_of_all_empty c ds
        (fun x hx => h x (List.mem_cons_of_mem d hx))
      simp only [frameScores] at ht ⊢
      rw [List.filter_cons_of_neg (by simp [hd])]
      exact ht

theorem frameScores_ne_nil (c : TrackerConfig) (ds : List EmotionDetection)
    (d : EmotionDetection) (hd : d ∈ ds) (hne : d.emotions ≠ []) :
    frameScores c ds ≠ [] := by
  have : d ∈ ds.filter (fun d => ¬ d.emotions = []) :=
    List.mem_filter.mpr ⟨hd, by simp [hne]⟩
  simp only [frameScores, ne_eq, List.map_eq_nil_iff]
  intro hfil
  rw [hfil] at this
  exact absurd this (List.not_mem_nil d)

theorem foldl_totals_all_empty :
    ∀ (ds : List EmotionDetection) (t : List (String × ℚ)),
      (∀ d ∈ ds, d.emotions = []) →
      ds.foldl (fun t d =>
        d.emotions.foldl (fun t p => addCount t (strLower p.1) p.2) t) t = t
  | [], t, _ => rfl
  | d :: ds, t, h => by
      have hd : d.emotions = [] := h d (List.mem_cons_self d ds)
      simp only [List.foldl_cons, hd, List.foldl_nil]
      exact foldl_totals_all_empty ds t
        (fun x hx => h x (List.mem_cons_of_mem d hx))

/-- C5: `update` never signals an error for any input (it is a total
function); on an empty detection list, or when every detection has an empty
emotion mapping, it returns raw_score = 0.0, dominant_emotion absent, and an
empty emotion_distribution, and otherwise raw_score is the arithmetic mean of
the per-face scores of the detections with non-empty mappings. -/
theorem update_degenerate_c5 :
    ∀ (c : TrackerConfig) (st : TrackerState) (ds : List EmotionDetection),
      ((∀ d ∈ ds, d.emotions = []) →
        (update c st ds).1.raw_score = 0 ∧
        (update c st ds).1.dominant_emotion = none ∧
        (update c st ds).1.emotion_distribution = []) ∧
      ((∃ d ∈ ds, d.emotions ≠ []) →
        (update c st ds).1.raw_score =
          (frameScores c ds).sum / ((frameScores c ds).length : ℚ)) := by
  intro c st ds
  constructor
  · intro h
    have h₁ := frameScores_nil_of_all_empty c ds h
    have h₂ : emotionTotals ds = [] := foldl_totals_all_empty ds [] h
    refine ⟨?_, ?_, ?_⟩ <;> simp [update, h₁, h₂]
  · rintro ⟨d, hd, hne⟩
    have h₁ := frameScores_ne_nil c ds d hd hne
    simp [update, h₁]

/-- Witness for C5: both branches at concrete inputs — the empty frame, and
the single-detection frame of the concrete scenario. -/
theorem update_degenerate_c5_witness :
    ((update cfgHappy initState []).1.raw_score = 0 ∧
      (update cfgHappy initState []).1.dominant_emotion = none ∧
      (update cfgHappy initState []).1.emotion_distribution = []) ∧
    (update cfgHappy initState [det1]).1.raw_score =
      (frameScores cfgHappy [det1]).sum /
        ((frameScores cfgHappy [det1]).length : ℚ) :=
  ⟨(update_degenerate_c5 cfgHappy initState []).1 (by simp),
    (update_degenerate_c5 cfgHappy initState [det1]).2
      ⟨det1, by simp, by simp [det1]⟩⟩

theorem update_scores (c : TrackerConfig) (st : TrackerState)
    (ds : List EmotionDetection) :
    (update c st ds).2.scores =
      dequeAppend c.history_size st.scores (frameRaw c ds) := rfl

theorem dequeAppend_eq_drop (m : ℕ) (xs : List ℚ) (x : ℚ) :
    dequeAppend m xs x = (xs ++ [x]).drop (xs.length + 1 - m) := by
  simp [dequeAppend]

theorem runUpdates_scores (c : TrackerConfig) :
    ∀ (fs : List (List EmotionDetection)) (st : TrackerState),
      st.scores.length ≤ c.history_size →
      (runUpdates c st fs).scores =
        (st.scores ++ fs.map (frameRaw c)).drop
          (st.scores.length + fs.length - c.history_size)
  | [], st, h => by
      simp only [runUpdates, List.map_nil, List.append_nil, List.length_nil,
        Nat.add_zero]
      rw [Nat.sub_eq_zero_of_le h, List.drop_zero]
  | f :: fs, st, h => by
      have hstep : (update c st f).2.scores =
          (st.scores ++ [frameRaw c f]).drop
            (st.scores.length + 1 - c.history_size) := by
        rw [update_scores, dequeAppend_eq_drop]
      have hlen : (update c st f).2.scores.length ≤ c.history_size := by
        rw [hstep, List.length_drop, List.length_append]
        simp only [List.length_singleton]
        omega
      have ih := runUpdates_scores c fs (update c st f).2 hlen
      rw [hstep] at ih
      have hj : st.scores.length + 1 - c.history_size ≤
          (st.scores ++ [frameRaw c f]).length := by
        simp
      simp only [runUpdates, List.map_cons, List.length_cons]
      rw [ih, List.length_drop, ← List.drop_append_of_le_length hj,
        List.drop_drop]
      have hX : st.scores ++ frameRaw c f :: List.map (frameRaw c) fs =
          (st.scores ++ [frameRaw c f]) ++ List.map (frameRaw c) fs := by
        simp
      rw [hX]
      congr 1
      simp only [List.length_append, List.length_singleton]
      omega

theorem dequeAppend_ne_nil (m : ℕ) (xs : List ℚ) (x : ℚ) (hm : 0 < m) :
    dequeAppend m xs x ≠ [] := by
  rw [dequeAppend_eq_drop]
  intro hcontra
  have := congrArg List.length hcontra
  rw [List.length_drop, List.length_append] at this
  simp only [List.length_singleton, List.length_nil] at this
  omega

/-- C3: the rolling history FIFO never holds more than history_size raw_score
entries — when at capacity, the oldest entry is evicted before the new
raw_score is kept (the window after any run from a fresh tracker consists of
the last history_size raw scores) — each returned rolling_average is the
arithmetic mean of exactly the entries in the FIFO after that call's
append/eviction, and after history_size + 1 updates the first raw_score no
longer contributes to rolling_average (the window is the raw-score list with
its first element dropped). -/
theorem fifo_c3 :
    ∀ (c : TrackerConfig) (fs : List (List EmotionDetection)),
      ((runUpdates c initState fs).scores =
          (fs.map (frameRaw c)).drop (fs.length - c.history_size)) ∧
      (runUpdates c initState fs).scores.length ≤ c.history_size ∧
      (∀ (st : TrackerState) (ds : List EmotionDetection),
          0 < c.history_size →
          (update c st ds).1.rolling_average =
            pyMean (update c st ds).2.scores) ∧
      (fs.length = c.history_size + 1 →
        (runUpdates c initState fs).scores =
          (fs.map (frameRaw c)).drop 1) := by
  intro c fs
  have h₀ := runUpdates_scores c fs initState (by simp [initState])
  simp only [show initState.scores = [] from rfl, List.nil_append,
    List.length_nil, Nat.zero_add] at h₀
  refine ⟨h₀, ?_, ?_, ?_⟩
  · rw [h₀, List.length_drop, List.length_map]
    omega
  · intro st ds hm
    have hne : (update c st ds).2.scores ≠ [] := by
      rw [update_scores]
      exact dequeAppend_ne_nil c.history_size st.scores (frameRaw c ds) hm
    have hra : (update c st ds).1.rolling_average =
        if (update c st ds).2.scores = [] then 0
        else pyMean (update c st ds).2.scores := rfl
    rw [hra, if_neg hne]
  · intro hlen
    rw [h₀, hlen]
    congr 1
    omega

/-- Witness for C3: with history_size = 2, the rolling average of a concrete
update is the mean of the new FIFO, and after 3 = 2 + 1 updates the FIFO is
the raw-score list with its first entry dropped. -/
theorem fifo_c3_witness :
    ((update cfgSmall initState [det1]).1.rolling_average =
        pyMean (update cfgSmall initState [det1]).2.scores) ∧
    (runUpdates cfgSmall initState [[det1], [], []]).scores =
      ([[det1], [], []].map (frameRaw cfgSmall)).drop 1 :=
  ⟨(fifo_c3 cfgSmall []).2.2.1 initState [det1] (by decide),
    (fifo_c3 cfgSmall [[det1], [], []]).2.2.2 rfl⟩

theorem mem_insertStr (a x : String) :
    ∀ l : List String, a ∈ insertStr x l ↔ a = x ∨ a ∈ l
  | [] => by simp [insertStr]
  | y :: ys => by
      by_cases h : charListLe x.data y.data
      · simp [insertStr, h]
      · simp only [insertStr, if_neg h, List.mem_cons, mem_insertStr a x ys]
        tauto

theorem mem_sortStr (a : String) :
    ∀ l : List String, a ∈ sortStr l ↔ a ∈ l
  | [] => by simp [sortStr]
  | x :: xs => by
      simp only [sortStr, mem_insertStr, mem_sortStr a xs, List.mem_cons]

theorem nodup_insertStr (x : String) :
    ∀ l : List String, l.Nodup → x ∉ l → (insertStr x l).Nodup
  | [], _, _ => by simp [insertStr]
  | y :: ys, hnd, hx => by
      by_cases h : charListLe x.data y.data
      · simp only [insertStr, if_pos h]
        exact List.nodup_cons.mpr ⟨hx, hnd⟩
      · simp only [insertStr, if_neg h, List.nodup_cons, mem_insertStr]
        rw [List.nodup_cons] at hnd
        refine ⟨?_, nodup_insertStr x ys hnd.2
          (fun hmem => hx (List.mem_cons_of_mem y hmem))⟩
        rintro (rfl | hmem)
        · exact hx (List.mem_cons_self y ys)
        · exact hnd.1 hmem

theorem nodup_sortStr :
    ∀ l : List String, l.Nodup → (sortStr l).Nodup
  | [], _ => by simp [sortStr]
  | x :: xs, hnd => by
      rw [List.nodup_cons] at hnd
      exact nodup_insertStr x (sortStr xs) (nodup_sortStr xs hnd.2)
        (fun hmem => hnd.1 ((mem_sortStr x xs).mp hmem))

theorem mem_normalise (a : String) (vs : List String) :
    a ∈ normalise vs ↔ a ∈ vs.map strLower := by
  unfold normalise
  rw [mem_sortStr, List.mem_dedup]

theorem nodup_normalise (vs : List String) : (normalise vs).Nodup :=
  nodup_sortStr _ (List.nodup_dedup _)

/-- Counterexample to C7 as stated: `merge_emotion_weights` also normalizes
the categories NOT mentioned in `overrides` — with base positive = ("Happy",)
and an override touching only the negative category, the resulting positive
category is ("happy",), not the base's ("Happy",). -/
theorem merge_c7_counterexample :
    (merge_emotion_weights
        { positive := ["Happy"], neutral := ["neutral"], negative := ["sad"] }
        (some [("negative", ["angry"])])).positive ≠
      ({ positive := ["Happy"], neutral := ["neutral"],
          negative := ["sad"] } : EmotionWeights).positive := by
  decide

/-- C7 (amended): `merge_emotion_weights(base, overrides)` with overrides
`None` or empty returns base itself; otherwise every category — both those
provided in overrides and those not mentioned, the latter taken from base —
is passed through `normalise`: lowercased, deduplicated (and sorted), so a
category not mentioned in overrides is unchanged only up to this
normalization; overriding positive with ["Happy","HAPPY"] yields the positive
category ["happy"]. -/
theorem merge_c7 :
    (∀ base : EmotionWeights, merge_emotion_weights base none = base) ∧
    (∀ base : EmotionWeights, merge_emotion_weights base (some []) = base) ∧
    (∀ (base : EmotionWeights) (o : List (String × List String)), o ≠ [] →
      (merge_emotion_weights base (some o)).positive =
          normalise (dictGetD o "positive" base.positive) ∧
      (merge_emotion_weights base (some o)).neutral =
          normalise (dictGetD o "neutral" base.neutral) ∧
      (merge_emotion_weights base (some o)).negative =
          normalise (dictGetD o "negative" base.negative)) ∧
    (∀ vs : List String,
      (∀ k, k ∈ normalise vs ↔ k ∈ vs.map strLower) ∧ (normalise vs).Nodup) ∧
    (merge_emotion_weights defaultEmotionWeights
        (some [("positive", ["Happy", "HAPPY"])])).positive = ["happy"] := by
  refine ⟨fun base => rfl, fun base => rfl, fun base o ho => ?_,
    fun vs => ⟨fun k => mem_normalise k vs, nodup_normalise vs⟩, by decide⟩
  simp [merge_emotion_weights, ho]

/-- Witness for C7: the non-empty-overrides branch applied at a concrete
override of the neutral category. -/
theorem merge_c7_witness :
    (merge_emotion_weights defaultEmotionWeights
        (some [("neutral", ["Calm"])])).neutral =
      normalise (dictGetD [("neutral", ["Calm"])] "neutral"
        defaultEmotionWeights.neutral) :=
  (merge_c7.2.2.1 defaultEmotionWeights [("neutral", ["Calm"])]
    (by simp)).2.1

theorem dictGetD_insert_eq {β : Type} (t : List (String × β)) (k e : String)
    (v z : β) :
    dictGetD (dictInsert t k v) e z = if e = k then v else dictGetD t e z := by
  unfold dictGetD
  rw [dictGet?_insert]
  by_cases h : e = k <;> simp [h]

theorem dictGetD_foldl_bump {β : Type} [AddCommMonoid β]
    (κ : String → String) (f : String × ℚ → β) :
    ∀ (ps : List (String × ℚ)) (t : List (String × β)) (k : String),
      dictGetD (ps.foldl (fun t p =>
          dictInsert t (κ p.1) (dictGetD t (κ p.1) 0 + f p)) t) k 0 =
        dictGetD t k 0 + ((ps.filter (fun p => κ p.1 = k)).map f).sum
  | [], t, k => by simp
  | p :: ps, t, k => by
      simp only [List.foldl_cons, dictGetD_foldl_bump κ f ps _ k,
        dictGetD_insert_eq]
      by_cases h : κ p.1 = k
      · rw [if_pos h.symm, List.filter_cons_of_pos (by simp [h]),
          List.map_cons, List.sum_cons, h, add_assoc]
      · rw [if_neg (fun hh => h hh.symm),
          List.filter_cons_of_neg (by simp [h])]

theorem dictGet?_foldl_bump_none {β : Type} [AddCommMonoid β]
    (κ : String → String) (f : String × ℚ → β) :
    ∀ (ps : List (String × ℚ)) (t : List (String × β)) (k : String),
      dictGet? (ps.foldl (fun t p =>
          dictInsert t (κ p.1) (dictGetD t (κ p.1) 0 + f p)) t) k = none ↔
        dictGet? t k = none ∧ ∀ p ∈ ps, κ p.1 ≠ k
  | [], t, k => by simp
  | p :: ps, t, k => by
      simp only [List.foldl_cons, dictGet?_foldl_bump_none κ f ps _ k,
        dictGet?_insert, List.mem_cons]
      by_cases h : κ p.1 = k
      · constructor
        · rintro ⟨hins, -⟩
          rw [if_pos h.symm] at hins
          cases hins
        · rintro ⟨-, hall⟩
          exact absurd h (hall p (Or.inl rfl))
      · rw [if_neg (fun hh => h hh.symm)]
        constructor
        · rintro ⟨h₁, h₂⟩
          refine ⟨h₁, ?_⟩
          rintro q (rfl | hq)
          · exact h
          · exact h₂ q hq
        · rintro ⟨h₁, h₂⟩
          exact ⟨h₁, fun q hq => h₂ q (Or.inr hq)⟩

theorem dictGetD_foldl_det {β : Type} [AddCommMonoid β]
    (κ : String → String) (f : String × ℚ → β) :
    ∀ (ds : List EmotionDetection) (t : List (String × β)) (k : String),
      dictGetD (ds.foldl (fun t d => d.emotions.foldl (fun t p =>
          dictInsert t (κ p.1) (dictGetD t (κ p.1) 0 + f p)) t) t) k 0 =
        dictGetD t k 0 +
          (ds.map (fun d =>
            ((d.emotions.filter (fun p => κ p.1 = k)).map f).sum)).sum
  | [], t, k => by simp
  | d :: ds, t, k => by
      simp only [List.foldl_cons, dictGetD_foldl_det κ f ds _ k,
        dictGetD_foldl_bump κ f d.emotions t k, List.map_cons,
        List.sum_cons, add_assoc]

theorem dictGet?_foldl_det_none {β : Type} [AddCommMonoid β]
    (κ : String → String) (f : String × ℚ → β) :
    ∀ (ds : List EmotionDetection) (t : List (String × β)) (k : String),
      dictGet? (ds.foldl (fun t d => d.emotions.foldl (fun t p =>
          dictInsert t (κ p.1) (dictGetD t (κ p.1) 0 + f p)) t) t) k =
            none ↔
        dictGet? t k = none ∧ ∀ d ∈ ds, ∀ p ∈ d.emotions, κ p.1 ≠ k
  | [], t, k => by simp
  | d :: ds, t, k => by
      simp only [List.foldl_cons, dictGet?_foldl_det_none κ f ds _ k,
        dictGet?_foldl_bump_none κ f d.emotions t k, List.mem_cons]
      constructor
      · rintro ⟨⟨h₁, h₂⟩, h₃⟩
        refine ⟨h₁, ?_⟩
        rintro x (rfl | hx)
        · exact h₂
        · exact h₃ x hx
      · rintro ⟨h₁, h₂⟩
        exact ⟨⟨h₁, h₂ d (Or.inl rfl)⟩, fun x hx => h₂ x (Or.inr hx)⟩

theorem sumValues_dictInsert {β : Type} [AddCommMonoid β] (k : String)
    (v : β) :
    ∀ t : List (String × β),
      ((dictInsert t k (dictGetD t k 0 + v)).map Prod.snd).sum =
        (t.map Prod.snd).sum + v
  | [] => by simp [dictInsert, dictGetD, dictGet?]
  | (k₀, v₀) :: t => by
      by_cases h : k₀ = k
      · subst h
        rw [show dictInsert ((k₀, v₀) :: t) k₀
              (dictGetD ((k₀, v₀) :: t) k₀ 0 + v) =
            (k₀, dictGetD ((k₀, v₀) :: t) k₀ 0 + v) :: t from by
          simp [dictInsert]]
        rw [show dictGetD ((k₀, v₀) :: t) k₀ 0 = v₀ from by
          simp [dictGetD, dictGet?]]
        simp only [List.map_cons, List.sum_cons]
        exact add_right_comm v₀ v _
      · have hgd : dictGetD ((k₀, v₀) :: t) k 0 = dictGetD t k 0 := by
          simp [dictGetD, dictGet?, h]
        simp only [dictInsert, if_neg h, List.map_cons, List.sum_cons, hgd,
          sumValues_dictInsert k v t, add_assoc]

theorem sumValues_foldl_bump {β : Type} [AddCommMonoid β]
    (κ : String → String) (f : String × ℚ → β) :
    ∀ (ps : List (String × ℚ)) (t : List (String × β)),
      ((ps.foldl (fun t p =>
          dictInsert t (κ p.1) (dictGetD t (κ p.1) 0 + f p)) t).map
        Prod.snd).sum =
        (t.map Prod.snd).sum + (ps.map f).sum
  | [], t => by simp
  | p :: ps, t => by
      simp only [List.foldl_cons, sumValues_foldl_bump κ f ps _,
        sumValues_dictInsert, List.map_cons, List.sum_cons, add_assoc]

theorem sumValues_foldl_det {β : Type} [AddCommMonoid β]
    (κ : String → String) (f : String × ℚ → β) :
    ∀ (ds : List EmotionDetection) (t : List (String × β)),
      ((ds.foldl (fun t d => d.emotions.foldl (fun t p =>
          dictInsert t (κ p.1) (dictGetD t (κ p.1) 0 + f p)) t) t).map
        Prod.snd).sum =
        (t.map Prod.snd).sum + (ds.map (fun d => (d.emotions.map f).sum)).sum
  | [], t => by simp
  | d :: ds, t => by
      simp only [List.foldl_cons, sumValues_foldl_det κ f ds _,
        sumValues_foldl_bump κ f d.emotions t, List.map_cons, List.sum_cons,
        add_assoc]

theorem emotionTotals_getD (ds : List EmotionDetection) (k : String) :
    dictGetD (emotionTotals ds) k 0 = accIntensity k ds := by
  have h := dictGetD_foldl_det strLower Prod.snd ds [] k
  simpa [emotionTotals, addCount, accIntensity, dictGetD, dictGet?] using h

theorem emotionTotals_none (ds : List EmotionDetection) (k : String) :
    dictGet? (emotionTotals ds) k = none ↔
      ∀ d ∈ ds, ∀ p ∈ d.emotions, strLower p.1 ≠ k := by
  have h := dictGet?_foldl_det_none strLower Prod.snd ds [] k
  simpa [emotionTotals, addCount, dictGet?] using h

theorem emotionTotals_sum (ds : List EmotionDetection) :
    ((emotionTotals ds).map Prod.snd).sum = frameIntensity ds := by
  have h := sumValues_foldl_det strLower Prod.snd ds []
  simpa [emotionTotals, addCount, frameIntensity] using h

theorem summaryTotals_getD (ds : List EmotionDetection) (k : String) :
    dictGetD (summaryTotals ds) k 0 = reportSum k ds := by
  have h := dictGetD_foldl_det (fun s => s) Prod.snd ds [] k
  simpa [summaryTotals, reportSum, dictGetD, dictGet?] using h

theorem summaryTotals_none (ds : List EmotionDetection) (k : String) :
    dictGet? (summaryTotals ds) k = none ↔
      ∀ d ∈ ds, ∀ p ∈ d.emotions, p.1 ≠ k := by
  have h := dictGet?_foldl_det_none (fun s => s) Prod.snd ds [] k
  simpa [summaryTotals, dictGet?] using h

theorem sum_map_one {α : Type} :
    ∀ l : List α, (l.map (fun _ => (1 : ℕ))).sum = l.length
  | [] => rfl
  | x :: l => by simp [sum_map_one l, Nat.add_comm]

theorem summaryCounts_getD (ds : List EmotionDetection) (k : String) :
    dictGetD (summaryCounts ds) k 0 =
      (ds.map (fun d =>
        (d.emotions.filter (fun p => p.1 = k)).length)).sum := by
  have h := dictGetD_foldl_det (fun s => s) (fun _ => (1 : ℕ)) ds [] k
  simpa [summaryCounts, dictGetD, dictGet?, sum_map_one] using h

theorem dictGet?_map_div (T : ℚ) :
    ∀ (l : List (String × ℚ)) (k : String),
      dictGet? (l.map (fun p => (p.1, p.2 / T))) k =
        (dictGet? l k).map (fun v => v / T)
  | [], k => rfl
  | (k₀, v₀) :: l, k => by
      by_cases h : k₀ = k
      · subst h
        simp [dictGet?]
      · simp [dictGet?, h, dictGet?_map_div T l k]

theorem sum_map_div (T : ℚ) :
    ∀ l : List (String × ℚ),
      ((l.map (fun p => (p.1, p.2 / T))).map Prod.snd).sum =
        (l.map Prod.snd).sum / T
  | [] => by simp
  | p :: l => by
      simp only [List.map_cons, List.sum_cons, sum_map_div T l, add_div]

theorem maxAux_spec :
    ∀ (rest : List (String × ℚ)) (best : String × ℚ),
      (maxAux best rest = best ∨ maxAux best rest ∈ rest) ∧
      best.2 ≤ (maxAux best rest).2 ∧
      ∀ p ∈ rest, p.2 ≤ (maxAux best rest).2
  | [], best => ⟨Or.inl rfl, le_refl _, by simp⟩
  | q :: rest, best => by
      by_cases h : best.2 < q.2
      · have ih := maxAux_spec rest q
        simp only [maxAux, if_pos h]
        refine ⟨?_, ?_, ?_⟩
        · rcases ih.1 with h₁ | h₁
          · exact Or.inr (List.mem_cons.mpr (Or.inl h₁))
          · exact Or.inr (List.mem_cons_of_mem q h₁)
        · exact le_of_lt (lt_of_lt_of_le h ih.2.1)
        · intro p hp
          rcases List.mem_cons.mp hp with rfl | hp'
          · exact ih.2.1
          · exact ih.2.2 p hp'
      · have ih := maxAux_spec rest best
        simp only [maxAux, if_neg h]
        refine ⟨?_, ih.2.1, ?_⟩
        · rcases ih.1 with h₁ | h₁
          · exact Or.inl h₁
          · exact Or.inr (List.mem_cons_of_mem q h₁)
        · intro p hp
          rcases List.mem_cons.mp hp with rfl | hp'
          · exact le_trans (le_of_not_lt h) ih.2.1
          · exact ih.2.2 p hp'

theorem pyMaxByVal_spec :
    ∀ l : List (String × ℚ), l ≠ [] →
      ∃ k v, pyMaxByVal l = some k ∧ (k, v) ∈ l ∧ ∀ p ∈ l, p.2 ≤ v
  | [], h => absurd rfl h
  | q :: rest, _ => by
      have spec := maxAux_spec rest q
      refine ⟨(maxAux q rest).1, (maxAux q rest).2, rfl, ?_, ?_⟩
      · rw [Prod.mk.eta]
        rcases spec.1 with h₁ | h₁
        · exact List.mem_cons.mpr (Or.inl h₁)
        · exact List.mem_cons_of_mem q h₁
      · intro p hp
        rcases List.mem_cons.mp hp with rfl | hp'
        · exact spec.2.1
        · exact spec.2.2 p hp'

/-- C4: whenever the total emotion intensity accumulated over the frame's
detections is > 0, the returned emotion_distribution maps each emotion seen
this frame (case-folded to lowercase) to its accumulated intensity divided by
the total, the distribution values sum to 1, and dominant_emotion is a key
attaining the maximum distribution value. -/
theorem distribution_c4 :
    ∀ (c : TrackerConfig) (st : TrackerState) (ds : List EmotionDetection),
      0 < frameIntensity ds →
      (∀ k, (∃ d ∈ ds, ∃ p ∈ d.emotions, strLower p.1 = k) →
          dictGet? (update c st ds).1.emotion_distribution k =
            some (accIntensity k ds / frameIntensity ds)) ∧
      ((update c st ds).1.emotion_distribution.map Prod.snd).sum = 1 ∧
      (∃ k v, (update c st ds).1.dominant_emotion = some k ∧
        (k, v) ∈ (update c st ds).1.emotion_distribution ∧
        ∀ p ∈ (update c st ds).1.emotion_distribution, p.2 ≤ v) := by
  intro c st ds h
  have hT : ((emotionTotals ds).map Prod.snd).sum = frameIntensity ds :=
    emotionTotals_sum ds
  have hTpos : 0 < ((emotionTotals ds).map Prod.snd).sum := by
    rw [hT]; exact h
  have hdist : (update c st ds).1.emotion_distribution =
      (emotionTotals ds).map
        (fun p => (p.1, p.2 / ((emotionTotals ds).map Prod.snd).sum)) := by
    have : (update c st ds).1.emotion_distribution =
        if 0 < ((emotionTotals ds).map Prod.snd).sum then
          (emotionTotals ds).map
            (fun p => (p.1, p.2 / ((emotionTotals ds).map Prod.snd).sum))
        else [] := rfl
    rw [this, if_pos hTpos]
  have hdom : (update c st ds).1.dominant_emotion =
      pyMaxByVal (update c st ds).1.emotion_distribution := by
    have : (update c st ds).1.dominant_emotion =
        if 0 < ((emotionTotals ds).map Prod.snd).sum then
          pyMaxByVal (update c st ds).1.emotion_distribution
        else none := rfl
    rw [this, if_pos hTpos]
  refine ⟨?_, ?_, ?_⟩
  · rintro k ⟨d, hd, p, hp, hk⟩
    rw [hdist, dictGet?_map_div]
    have hnone : ¬ dictGet? (emotionTotals ds) k = none := by
      rw [emotionTotals_none]
      push_neg
      exact ⟨d, hd, p, hp, hk⟩
    obtain ⟨v, hv⟩ := Option.ne_none_iff_exists'.mp hnone
    have hval : v = accIntensity k ds := by
      have hgd := emotionTotals_getD ds k
      rw [dictGetD, hv] at hgd
      simpa using hgd
    rw [hv, hval, hT]
    rfl
  · rw [hdist, sum_map_div, div_self (ne_of_gt hTpos)]
  · have hne : emotionTotals ds ≠ [] := by
      intro hnil
      rw [hnil] at hTpos
      simp at hTpos
    have hdne : (update c st ds).1.emotion_distribution ≠ [] := by
      rw [hdist]
      simpa using hne
    obtain ⟨k, v, hmax, hmem, hub⟩ :=
      pyMaxByVal_spec (update c st ds).1.emotion_distribution hdne
    exact ⟨k, v, by rw [hdom, hmax], hmem, hub⟩

/-- Witness for C4: the concrete scenario frame, whose total intensity is 1,
looked up at the emotion "happy". -/
theorem distribution_c4_witness :
    dictGet? (update cfgHappy initState [det1]).1.emotion_distribution
        "happy" =
      some (accIntensity "happy" [det1] / frameIntensity [det1]) :=
  (distribution_c4 cfgHappy initState [det1]
      (by simp [frameIntensity, det1]; norm_num)).1 "happy"
    ⟨det1, by simp, ("happy", 3/5), by simp [det1], by decide⟩

theorem format_detection_summary_eq (ds : List EmotionDetection) :
    format_detection_summary ds =
      if summaryTotals ds = [] then []
      else (summaryTotals ds).map
        (fun p => (p.1, p.2 /
          ((dictGetD (summaryCounts ds) p.1 0 : ℕ) : ℚ))) := rfl

theorem dictGet?_map_avg (counts : List (String × ℕ)) :
    ∀ (l : List (String × ℚ)) (k : String),
      dictGet? (l.map (fun p => (p.1, p.2 /
          ((dictGetD counts p.1 0 : ℕ) : ℚ)))) k =
        (dictGet? l k).map
          (fun v => v / ((dictGetD counts k 0 : ℕ) : ℚ))
  | [], k => rfl
  | (k₀, v₀) :: l, k => by
      by_cases h : k₀ = k
      · subst h
        simp [dictGet?]
      · simp [dictGet?, h, dictGet?_map_avg counts l k]

theorem length_filter_key_nodup (k : String) :
    ∀ ps : List (String × ℚ), (ps.map Prod.fst).Nodup →
      (ps.filter (fun p => p.1 = k)).length =
        if ps.any (fun p => p.1 = k) then 1 else 0
  | [], _ => by simp
  | p :: ps, hnd => by
      simp only [List.map_cons, List.nodup_cons] at hnd
      by_cases h : p.1 = k
      · rw [List.filter_cons_of_pos (by simp [h])]
        have hzero : (ps.filter (fun q => q.1 = k)).length = 0 := by
          rw [List.length_eq_zero, List.filter_eq_nil_iff]
          intro q hq
          simp only [decide_eq_true_eq]
          intro hqk
          have hmem : q.1 ∈ ps.map Prod.fst := List.mem_map_of_mem Prod.fst hq
          rw [hqk, ← h] at hmem
          exact hnd.1 hmem
        simp [h, hzero]
      · rw [List.filter_cons_of_neg (by simp [h])]
        rw [length_filter_key_nodup k ps hnd.2]
        have hfalse : decide (p.1 = k) = false := by simp [h]
        rw [List.any_cons, hfalse, Bool.false_or]

theorem reportCount_eq (k : String) :
    ∀ ds : List EmotionDetection,
      (∀ d ∈ ds, (d.emotions.map Prod.fst).Nodup) →
      (ds.map (fun d =>
          (d.emotions.filter (fun p => p.1 = k)).length)).sum =
        reportCount k ds
  | [], _ => rfl
  | d :: ds, hnd => by
      have hd := length_filter_key_nodup k d.emotions
        (hnd d (List.mem_cons_self d ds))
      have ih := reportCount_eq k ds
        (fun x hx => hnd x (List.mem_cons_of_mem d hx))
      simp only [List.map_cons, List.sum_cons, hd, ih, reportCount,
        List.countP_cons]
      by_cases h : d.emotions.any (fun p => p.1 = k) <;>
        first
        | (simp [h]; omega)
        | simp [h]

theorem foldl_det_all_empty {β : Type}
    (g : List (String × β) → String × ℚ → List (String × β)) :
    ∀ (ds : List EmotionDetection) (t : List (String × β)),
      (∀ d ∈ ds, d.emotions = []) →
      ds.foldl (fun t d => d.emotions.foldl g t) t = t
  | [], t, _ => rfl
  | d :: ds, t, h => by
      have hd : d.emotions = [] := h d (List.mem_cons_self d ds)
      simp only [List.foldl_cons, hd, List.foldl_nil]
      exact foldl_det_all_empty g ds t
        (fun x hx => h x (List.mem_cons_of_mem d hx))

/-- C8: the stateless frame-level summary function (a pure function of the
detection list, independent of any tracker state) maps each reported emotion
name to the sum of that emotion's scores across all detections that reported
it divided by the count of detections that reported it, maps no unreported
name, and returns the empty mapping when no detection reports any emotion.
(The per-detection Nodup hypothesis mirrors Python dict keys, which are
necessarily distinct within one detection.) -/
theorem summary_c8 :
    ∀ ds : List EmotionDetection,
      (∀ d ∈ ds, (d.emotions.map Prod.fst).Nodup) →
      ((∀ d ∈ ds, d.emotions = []) → format_detection_summary ds = []) ∧
      (∀ k, (∃ d ∈ ds, ∃ p ∈ d.emotions, p.1 = k) →
          dictGet? (format_detection_summary ds) k =
            some (reportSum k ds / (reportCount k ds : ℚ))) ∧
      (∀ k, (∀ d ∈ ds, ∀ p ∈ d.emotions, p.1 ≠ k) →
          dictGet? (format_detection_summary ds) k = none) := by
  intro ds hnd
  refine ⟨?_, ?_, ?_⟩
  · intro h
    have ht : summaryTotals ds = [] := foldl_det_all_empty _ ds [] h
    rw [format_detection_summary_eq, if_pos ht]
  · rintro k ⟨d, hd, p, hp, hk⟩
    have hnone : ¬ dictGet? (summaryTotals ds) k = none := by
      rw [summaryTotals_none]
      push_neg
      exact ⟨d, hd, p, hp, hk⟩
    have htne : summaryTotals ds ≠ [] := by
      intro hnil
      rw [hnil] at hnone
      exact hnone rfl
    rw [format_detection_summary_eq, if_neg htne, dictGet?_map_avg]
    obtain ⟨v, hv⟩ := Option.ne_none_iff_exists'.mp hnone
    have hval : v = reportSum k ds := by
      have hgd := summaryTotals_getD ds k
      rw [dictGetD, hv] at hgd
      simpa using hgd
    have hcnt : dictGetD (summaryCounts ds) k 0 = reportCount k ds := by
      rw [summaryCounts_getD, reportCount_eq k ds hnd]
    rw [hv, hval, hcnt]
    rfl
  · intro k h
    by_cases ht : summaryTotals ds = []
    · rw [format_detection_summary_eq, if_pos ht]
      rfl
    · rw [format_detection_summary_eq, if_neg ht, dictGet?_map_avg,
        (summaryTotals_none ds k).mpr h]
      rfl

/-- Witness for C8: two concrete detections both reporting "happy"; the
summary value at "happy" is the reported sum divided by the reporting
detection count. -/
theorem summary_c8_witness :
    dictGet? (format_detection_summary [det1, det2]) "happy" =
      some (reportSum "happy" [det1, det2] /
        (reportCount "happy" [det1, det2] : ℚ)) :=
  (summary_c8 [det1, det2] (by decide)).2.1 "happy"
    ⟨det1, by simp, ("happy", 3/5), by simp [det1], rfl⟩

theorem weight_for_tri (c : TrackerConfig) (e : String) :
    c.weight_for e = 0 ∨ c.weight_for e = 1/2 ∨ c.weight_for e = 1 := by
  rw [weight_for_eq]
  split_ifs <;> simp

theorem weight_for_bounds (c : TrackerConfig) (e : String) :
    0 ≤ c.weight_for e ∧ c.weight_for e ≤ 1 := by
  rcases weight_for_tri c e with h | h | h <;> rw [h] <;> norm_num

theorem scoreForEmotions_bounds (c : TrackerConfig) (es : List (String × ℚ))
    (h : ∀ p ∈ es, 0 ≤ p.2) :
    0 ≤ scoreForEmotions c es ∧ scoreForEmotions c es ≤ 1 := by
  rw [scoreForEmotions_closed]
  by_cases ht : (es.map Prod.snd).sum ≤ 0
  · rw [if_pos ht]
    norm_num
  · rw [if_neg ht]
    push_neg at ht
    have hnum0 :
        0 ≤ (es.map (fun p => c.weight_for (strLower p.1) * p.2)).sum := by
      apply List.sum_nonneg
      intro x hx
      obtain ⟨p, hp, rfl⟩ := List.mem_map.mp hx
      exact mul_nonneg (weight_for_bounds c (strLower p.1)).1 (h p hp)
    have hle : (es.map (fun p => c.weight_for (strLower p.1) * p.2)).sum ≤
        (es.map Prod.snd).sum := by
      apply List.sum_le_sum
      intro p hp
      calc c.weight_for (strLower p.1) * p.2 ≤ 1 * p.2 :=
            mul_le_mul_of_nonneg_right (weight_for_bounds c _).2 (h p hp)
        _ = p.2 := one_mul _
    exact ⟨div_nonneg hnum0 (le_of_lt ht), (div_le_one ht).mpr hle⟩

theorem sum_map_one_q {α : Type} :
    ∀ xs : List α, (xs.map (fun _ => (1 : ℚ))).sum = (xs.length : ℚ)
  | [] => by simp
  | x :: xs => by
      simp [sum_map_one_q xs]
      ring

theorem mean_bounds (xs : List ℚ) (hne : xs ≠ [])
    (h : ∀ x ∈ xs, 0 ≤ x ∧ x ≤ 1) :
    0 ≤ xs.sum / (xs.length : ℚ) ∧ xs.sum / (xs.length : ℚ) ≤ 1 := by
  have hlen : 0 < (xs.length : ℚ) := by
    exact_mod_cast List.length_pos.mpr hne
  have hsum0 : 0 ≤ xs.sum := List.sum_nonneg (fun x hx => (h x hx).1)
  have hsumle : xs.sum ≤ (xs.length : ℚ) := by
    have h₁ : xs.sum = (xs.map id).sum := by simp
    have h₂ : (xs.map id).sum ≤ (xs.map (fun _ => (1 : ℚ))).sum :=
      List.sum_le_sum (fun x hx => by simpa using (h x hx).2)
    rw [h₁]
    exact le_trans h₂ (le_of_eq (sum_map_one_q xs))
  exact ⟨div_nonneg hsum0 (le_of_lt hlen), (div_le_one hlen).mpr hsumle⟩

theorem update_smoothed_none (c : TrackerConfig) (st : TrackerState)
    (ds : List EmotionDetection) (h : st.smoothed = none) :
    (update c st ds).2.smoothed = some (frameRaw c ds) := by
  simp [update, h, frameRaw]

theorem update_smoothed_some (c : TrackerConfig) (st : TrackerState)
    (ds : List EmotionDetection) (s : ℚ) (h : st.smoothed = some s) :
    (update c st ds).2.smoothed =
      some ((1 - c.smoothing_factor) * s +
        c.smoothing_factor * frameRaw c ds) := by
  simp [update, h, frameRaw]

theorem mem_dequeAppend (m : ℕ) (xs : List ℚ) (r x : ℚ)
    (h : x ∈ dequeAppend m xs r) : x ∈ xs ∨ x = r := by
  rw [dequeAppend_eq_drop] at h
  have := List.mem_of_mem_drop h
  rcases List.mem_append.mp this with h₁ | h₁
  · exact Or.inl h₁
  · exact Or.inr (List.mem_singleton.mp h₁)

theorem update_bounds (c : TrackerConfig)
    (hα₁ : 0 ≤ c.smoothing_factor) (hα₂ : c.smoothing_factor ≤ 1)
    (st : TrackerState)
    (hsc : ∀ x ∈ st.scores, 0 ≤ x ∧ x ≤ 1)
    (hsm : ∀ s, st.smoothed = some s → 0 ≤ s ∧ s ≤ 1)
    (ds : List EmotionDetection)
    (hds : ∀ d ∈ ds, ∀ p ∈ d.emotions, 0 ≤ p.2) :
    (0 ≤ (update c st ds).1.raw_score ∧ (update c st ds).1.raw_score ≤ 1) ∧
    (0 ≤ (update c st ds).1.rolling_average ∧
      (update c st ds).1.rolling_average ≤ 1) ∧
    (0 ≤ (update c st ds).1.smoothed_score ∧
      (update c st ds).1.smoothed_score ≤ 1) ∧
    (∀ x ∈ (update c st ds).2.scores, 0 ≤ x ∧ x ≤ 1) ∧
    (∀ s, (update c st ds).2.smoothed = some s → 0 ≤ s ∧ s ≤ 1) := by
  have hframe : ∀ x ∈ frameScores c ds, 0 ≤ x ∧ x ≤ 1 := by
    intro x hx
    obtain ⟨d, hd, rfl⟩ := List.mem_map.mp hx
    exact scoreForEmotions_bounds c d.emotions
      (fun p hp => hds d (List.mem_of_mem_filter hd) p hp)
  have hraw : 0 ≤ frameRaw c ds ∧ frameRaw c ds ≤ 1 := by
    unfold frameRaw
    by_cases hfe : frameScores c ds = []
    · rw [if_pos hfe]
      norm_num
    · rw [if_neg hfe]
      exact mean_bounds _ hfe hframe
  have hsc' : ∀ x ∈ (update c st ds).2.scores, 0 ≤ x ∧ x ≤ 1 := by
    rw [update_scores]
    intro x hx
    rcases mem_dequeAppend _ _ _ _ hx with h₁ | rfl
    · exact hsc x h₁
    · exact hraw
  have hsm' : ∀ s, (update c st ds).2.smoothed = some s →
      0 ≤ s ∧ s ≤ 1 := by
    intro s hs
    cases hst : st.smoothed with
    | none =>
        rw [update_smoothed_none c st ds hst] at hs
        cases hs
        exact hraw
    | some s₀ =>
        rw [update_smoothed_some c st ds s₀ hst] at hs
        cases hs
        have hb := hsm s₀ hst
        constructor
        · nlinarith [hb.1, hb.2, hraw.1, hraw.2]
        · nlinarith [hb.1, hb.2, hraw.1, hraw.2]
  refine ⟨?_, ?_, ?_, hsc', hsm'⟩
  · rw [update_raw]
    exact hraw
  · have hro : (update c st ds).1.rolling_average =
        if (update c st ds).2.scores = [] then 0
        else pyMean (update c st ds).2.scores := rfl
    rw [hro]
    by_cases hse : (update c st ds).2.scores = []
    · rw [if_pos hse]
      norm_num
    · rw [if_neg hse]
      exact mean_bounds _ hse hsc'
  · have hval : (update c st ds).1.smoothed_score =
        optOr ((update c st ds).2.smoothed) := rfl
    cases hst : st.smoothed with
    | none =>
        rw [hval, update_smoothed_none c st ds hst, optOr_some]
        exact hraw
    | some s₀ =>
        rw [hval, update_smoothed_some c st ds s₀ hst, optOr_some]
        exact hsm' _ (update_smoothed_some c st ds s₀ hst)

theorem runSummaries_bounds (c : TrackerConfig)
    (hα₁ : 0 ≤ c.smoothing_factor) (hα₂ : c.smoothing_factor ≤ 1) :
    ∀ (fs : List (List EmotionDetection)) (st : TrackerState),
      (∀ x ∈ st.scores, 0 ≤ x ∧ x ≤ 1) →
      (∀ s, st.smoothed = some s → 0 ≤ s ∧ s ≤ 1) →
      (∀ f ∈ fs, ∀ d ∈ f, ∀ p ∈ d.emotions, 0 ≤ p.2) →
      ∀ sm ∈ runSummaries c st fs,
        (0 ≤ sm.raw_score ∧ sm.raw_score ≤ 1) ∧
        (0 ≤ sm.rolling_average ∧ sm.rolling_average ≤ 1) ∧
        (0 ≤ sm.smoothed_score ∧ sm.smoothed_score ≤ 1)
  | [], st, _, _, _ => by simp [runSummaries]
  | f :: fs, st, h₁, h₂, h₃ => by
      have hub := update_bounds c hα₁ hα₂ st h₁ h₂ f
        (h₃ f (List.mem_cons_self f fs))
      intro sm hsm
      simp only [runSummaries, List.mem_cons] at hsm
      rcases hsm with rfl | hsm
      · exact ⟨hub.1, hub.2.1, hub.2.2.1⟩
      · exact runSummaries_bounds c hα₁ hα₂ fs (update c st f).2
          hub.2.2.2.1 hub.2.2.2.2
          (fun g hg => h₃ g (List.mem_cons_of_mem f hg)) sm hsm

/-- C9 (implicit): for every tracker whose detections all carry non-negative
emotion scores and whose smoothing_factor lies in [0,1], the weight lookup
only ever yields values in \x7b0.0, 0.5, 1.0\x7d (regardless of user-supplied
category overrides), every per-face score lies in [0,1], and every returned
raw_score, rolling_average and smoothed_score lies in [0,1]. -/
theorem bounds_c9 :
    ∀ c : TrackerConfig,
      0 ≤ c.smoothing_factor → c.smoothing_factor ≤ 1 →
      ∀ fs : List (List EmotionDetection),
        (∀ f ∈ fs, ∀ d ∈ f, ∀ p ∈ d.emotions, 0 ≤ p.2) →
        (∀ e, c.weight_for e = 0 ∨ c.weight_for e = 1/2 ∨
          c.weight_for e = 1) ∧
        (∀ f ∈ fs, ∀ d ∈ f, 0 ≤ scoreForEmotions c d.emotions ∧
          scoreForEmotions c d.emotions ≤ 1) ∧
        (∀ sm ∈ runSummaries c initState fs,
          (0 ≤ sm.raw_score ∧ sm.raw_score ≤ 1) ∧
          (0 ≤ sm.rolling_average ∧ sm.rolling_average ≤ 1) ∧
          (0 ≤ sm.smoothed_score ∧ sm.smoothed_score ≤ 1)) := by
  intro c hα₁ hα₂ fs hfs
  refine ⟨weight_for_tri c, ?_, ?_⟩
  · intro f hf d hd
    exact scoreForEmotions_bounds c d.emotions (hfs f hf d hd)
  · exact runSummaries_bounds c hα₁ hα₂ fs initState (by simp [initState])
      (by simp [initState]) hfs

/-- Witness for C9: the concrete scenario configuration (α = 0.2) and a
single frame with one detection carrying non-negative scores. -/
theorem bounds_c9_witness :
    (∀ e, cfgHappy.weight_for e = 0 ∨ cfgHappy.weight_for e = 1/2 ∨
      cfgHappy.weight_for e = 1) ∧
    (∀ f ∈ [[det1]], ∀ d ∈ f, 0 ≤ scoreForEmotions cfgHappy d.emotions ∧
      scoreForEmotions cfgHappy d.emotions ≤ 1) ∧
    (∀ sm ∈ runSummaries cfgHappy initState [[det1]],
      (0 ≤ sm.raw_score ∧ sm.raw_score ≤ 1) ∧
      (0 ≤ sm.rolling_average ∧ sm.rolling_average ≤ 1) ∧
      (0 ≤ sm.smoothed_score ∧ sm.smoothed_score ≤ 1)) :=
  bounds_c9 cfgHappy (by norm_num [cfgHappy]) (by norm_num [cfgHappy])
    [[det1]]
    (by
      intro f hf d hd p hp
      simp only [List.mem_singleton] at hf
      subst hf
      simp only [List.mem_singleton] at hd
      subst hd
      simp only [det1, List.mem_cons, List.mem_singleton] at hp
      rcases hp with rfl | rfl | hp
      · norm_num
      · norm_num
      · simp at hp)

end EmotionDetector
